import Mathlib

/-!
Shallow embedding of the `enum-set` crate (`src/lib.rs` and
`enum-set-derive/src/lib.rs`) and proofs of the specification claims.

Modelling conventions:
* The element type `E` is abstract.  The `CLike` trait is represented by two
  function parameters: `ordOf : E → Nat` stands for `CLike::to_u32` and
  `f : Nat → E` stands for `CLike::from_u32` (the unsafe conversion; it is a
  total Lean function whose value outside the valid-ordinal domain is
  arbitrary, matching "only needs to be safe for possible return values of
  `to_u32`").
* `u32` masks are `Nat`s; every stored mask is `< 2^32`, and no bitwise
  operation used here can overflow, so no `% 2^32` is needed.  Rust's `!x`
  (bitwise complement on `u32`) is `not32 x = (2^32 - 1) ^^^ x`.
* A Rust panic (the `assert!` in `bit`) is modelled with `Option`/explicit
  result pairs: `none` means the operation panicked.
-/

/-- The mask computation `fn bit<E: CLike>(e: &E) -> u32`:
`1 << value` guarded by `assert!(value < 32)`.  `none` models the
assertion (panic) firing. -/
def bitOf {E : Type} (ordOf : E → Nat) (e : E) : Option Nat :=
  let value := ordOf e
  if value < 32 then some (2 ^ value) else none

/-- Bitwise complement on 32-bit masks: Rust `!x` for `x : u32`. -/
def not32 (x : Nat) : Nat := (2 ^ 32 - 1) ^^^ x

/-- `pub struct EnumSet<E> { bits: u32, phantom: PhantomData<E> }`. -/
structure EnumSet (E : Type) where
  bits : Nat
deriving DecidableEq

/-- `EnumSet::new_with_bits`. -/
def EnumSet.new_with_bits (E : Type) (bits : Nat) : EnumSet E :=
  ⟨bits⟩

/-- `EnumSet::new`: the empty set. -/
def EnumSet.new (E : Type) : EnumSet E :=
  EnumSet.new_with_bits E 0

/-- `count_ones` on a natural number (Rust `u32::count_ones`). -/
def count_ones (n : Nat) : Nat :=
  if h : n = 0 then 0 else n % 2 + count_ones (n / 2)
termination_by n
decreasing_by exact Nat.div_lt_self (Nat.pos_of_ne_zero h) (by omega)

/-- `EnumSet::len`: population count of the mask. -/
def EnumSet.len {E : Type} (s : EnumSet E) : Nat :=
  count_ones s.bits

/-- `EnumSet::is_empty`. -/
def EnumSet.is_empty {E : Type} (s : EnumSet E) : Bool :=
  s.bits == 0

/-- `EnumSet::clear` (returns the post-state of the mutation). -/
def EnumSet.clear {E : Type} (_s : EnumSet E) : EnumSet E :=
  ⟨0⟩

/-- `EnumSet::is_disjoint`. -/
def EnumSet.is_disjoint {E : Type} (s other : EnumSet E) : Bool :=
  (s.bits &&& other.bits) == 0

/-- `EnumSet::is_superset`. -/
def EnumSet.is_superset {E : Type} (s other : EnumSet E) : Bool :=
  (s.bits &&& other.bits) == other.bits

/-- `EnumSet::is_subset`: delegates to `other.is_superset(self)`. -/
def EnumSet.is_subset {E : Type} (s other : EnumSet E) : Bool :=
  other.is_superset s

/-- `EnumSet::union`. -/
def EnumSet.union {E : Type} (s other : EnumSet E) : EnumSet E :=
  ⟨s.bits ||| other.bits⟩

/-- `EnumSet::intersection`. -/
def EnumSet.intersection {E : Type} (s other : EnumSet E) : EnumSet E :=
  ⟨s.bits &&& other.bits⟩

/-- `EnumSet::difference`: `self.bits & !other.bits`. -/
def EnumSet.difference {E : Type} (s other : EnumSet E) : EnumSet E :=
  ⟨s.bits &&& not32 other.bits⟩

/-- `EnumSet::symmetric_difference`. -/
def EnumSet.symmetric_difference {E : Type} (s other : EnumSet E) : EnumSet E :=
  ⟨s.bits ^^^ other.bits⟩

/-- `ops::Sub for EnumSet` (`a - b`). -/
def EnumSet.sub {E : Type} (s other : EnumSet E) : EnumSet E :=
  s.difference other

/-- `ops::BitOr for EnumSet` (`a | b`). -/
def EnumSet.bitor {E : Type} (s other : EnumSet E) : EnumSet E :=
  s.union other

/-- `ops::BitAnd for EnumSet` (`a & b`). -/
def EnumSet.bitand {E : Type} (s other : EnumSet E) : EnumSet E :=
  s.intersection other

/-- `ops::BitXor for EnumSet` (`a ^ b`). -/
def EnumSet.bitxor {E : Type} (s other : EnumSet E) : EnumSet E :=
  s.symmetric_difference other

/-- `EnumSet::contains`: `(self.bits & bit(value)) != 0`.
`none` models the panic of `bit` when the ordinal is out of range. -/
def EnumSet.containsOpt {E : Type} (ordOf : E → Nat) (s : EnumSet E) (e : E) :
    Option Bool :=
  (bitOf ordOf e).map (fun b => !((s.bits &&& b) == 0))

/-- `EnumSet::insert` step semantics.  The Rust body is
`let result = !self.contains(&value); self.bits |= bit(&value); result`.
The second component is the resulting mask state even when the operation
panics (first component `none`): a panic leaves `bits` untouched because
both `contains` and `bit` are evaluated before the `|=` assignment. -/
def EnumSet.insertStep {E : Type} (ordOf : E → Nat) (s : EnumSet E) (e : E) :
    Option Bool × EnumSet E :=
  match EnumSet.containsOpt ordOf s e with
  | none => (none, s)
  | some c =>
    match bitOf ordOf e with
    | none => (none, s)
    | some b => (some (!c), ⟨s.bits ||| b⟩)

/-- `EnumSet::insert`, panic modelled as `none`. -/
def EnumSet.insert {E : Type} (ordOf : E → Nat) (s : EnumSet E) (e : E) :
    Option (Bool × EnumSet E) :=
  match EnumSet.insertStep ordOf s e with
  | (some r, s') => some (r, s')
  | (none, _) => none

/-- `EnumSet::remove` step semantics: `let result = self.contains(value);
self.bits &= !bit(value); result`; state unchanged on panic. -/
def EnumSet.removeStep {E : Type} (ordOf : E → Nat) (s : EnumSet E) (e : E) :
    Option Bool × EnumSet E :=
  match EnumSet.containsOpt ordOf s e with
  | none => (none, s)
  | some c =>
    match bitOf ordOf e with
    | none => (none, s)
    | some b => (some c, ⟨s.bits &&& not32 b⟩)

/-- `EnumSet::remove`, panic modelled as `none`. -/
def EnumSet.remove {E : Type} (ordOf : E → Nat) (s : EnumSet E) (e : E) :
    Option (Bool × EnumSet E) :=
  match EnumSet.removeStep ordOf s e with
  | (some r, s') => some (r, s')
  | (none, _) => none

/-- `Extend::extend` / repeated `insert` over a list of elements
(`for element in iter { self.insert(element); }`); `none` if any insert
panics. -/
def extendList {E : Type} (ordOf : E → Nat) (s : EnumSet E) :
    List E → Option (EnumSet E)
  | [] => some s
  | e :: rest =>
    match EnumSet.insert ordOf s e with
    | none => none
    | some (_, s') => extendList ordOf s' rest

/-- `FromIterator::from_iter`: `let mut ret = Self::new(); ret.extend(iterator); ret`. -/
def from_iter {E : Type} (ordOf : E → Nat) (l : List E) : Option (EnumSet E) :=
  extendList ordOf (EnumSet.new E) l

/-- `pub struct Iter<E> { index: u32, bits: u32, phantom: PhantomData<*mut E> }`. -/
structure Iter (E : Type) where
  index : Nat
  bits : Nat
deriving DecidableEq

/-- `EnumSet::iter`: `Iter { index: 0, bits: self.bits, .. }` — a snapshot of
the current mask. -/
def EnumSet.iter {E : Type} (s : EnumSet E) : Iter E :=
  ⟨0, s.bits⟩

/-- The `while (self.bits & 1) == 0 { self.index += 1; self.bits >>= 1; }`
loop of `Iter::next`.  The loop is only ever entered with `bits ≠ 0` (checked
by `next`); the extra `bits ≠ 0` in the guard only makes the Lean function
total and does not change its value on the reachable inputs. -/
def skipZeros (index bits : Nat) : Nat × Nat :=
  if h : bits ≠ 0 ∧ bits % 2 = 0 then
    skipZeros (index + 1) (bits / 2)
  else (index, bits)
termination_by bits
decreasing_by exact Nat.div_lt_self (Nat.pos_of_ne_zero h.1) (by omega)

/-- `Iter::next`.  `f` stands for `CLike::from_u32`; the element returned is
`f` of the index of the lowest set bit, afterwards `index` is bumped past it
and `bits` shifted right once more. -/
def Iter.next {E : Type} (f : Nat → E) (it : Iter E) : Option (E × Iter E) :=
  if it.bits = 0 then none
  else
    let p := skipZeros it.index it.bits
    some (f p.1, ⟨p.1 + 1, p.2 / 2⟩)

/-- `Iter::size_hint`: the exact remaining count. -/
def Iter.size_hint {E : Type} (it : Iter E) : Nat × Option Nat :=
  (count_ones it.bits, some (count_ones it.bits))

/-- The skipping loop never increases the remaining mask. -/
theorem skipZeros_snd_le (bits : Nat) : ∀ index, (skipZeros index bits).2 ≤ bits := by
  induction bits using Nat.strong_induction_on with
  | _ bits ih =>
    intro index
    rw [skipZeros]
    split
    · next h =>
      exact Nat.le_trans
        (ih (bits / 2) (Nat.div_lt_self (Nat.pos_of_ne_zero h.1) (by omega)) (index + 1))
        (Nat.div_le_self _ _)
    · exact Nat.le_refl _

/-- A successful `next` strictly shrinks the remaining mask. -/
theorem Iter.next_bits_lt {E : Type} (f : Nat → E) (it : Iter E) (e : E)
    (it' : Iter E) (h : Iter.next f it = some (e, it')) : it'.bits < it.bits := by
  rw [Iter.next] at h
  split at h
  · exact absurd h (by simp)
  · next hb =>
    have hle : (skipZeros it.index it.bits).2 ≤ it.bits := skipZeros_snd_le _ _
    have : it' = ⟨(skipZeros it.index it.bits).1 + 1, (skipZeros it.index it.bits).2 / 2⟩ := by
      cases h; rfl
    rw [this]
    exact Nat.lt_of_le_of_lt (Nat.div_le_div_right hle)
      (Nat.div_lt_self (Nat.pos_of_ne_zero hb) (by omega))

/-- Draining an iterator: the list of all elements yielded by repeated
`next` calls until exhaustion. -/
def Iter.toList {E : Type} (f : Nat → E) (it : Iter E) : List E :=
  match h : Iter.next f it with
  | none => []
  | some (e, it') => e :: Iter.toList f it'
termination_by it.bits
decreasing_by exact Iter.next_bits_lt f it e it' h

/-- Specification-side list of set bit positions of a mask, in ascending
order (used to reason about the iterator). -/
def bitIndices (n : Nat) : List Nat :=
  if h : n = 0 then []
  else if n % 2 = 1 then 0 :: (bitIndices (n / 2)).map (· + 1)
  else (bitIndices (n / 2)).map (· + 1)
termination_by n
decreasing_by
  all_goals exact Nat.div_lt_self (Nat.pos_of_ne_zero h) (by omega)

/-- Invariant I1: every set bit of the mask is a valid ordinal, i.e. the
ordinal of some value of the element type. -/
def validMask {E : Type} (ordOf : E → Nat) (bits : Nat) : Prop :=
  ∀ i, bits.testBit i = true → ∃ e : E, ordOf e = i

/-- Sets built from the empty set by any sequence of the documented
operations (each mutation recorded through its successful, non-panicking
result). -/
inductive Built {E : Type} (ordOf : E → Nat) : EnumSet E → Prop
  | new_op : Built ordOf (EnumSet.new E)
  | insert_op {s s' : EnumSet E} {r : Bool} {e : E} :
      Built ordOf s → EnumSet.insert ordOf s e = some (r, s') → Built ordOf s'
  | remove_op {s s' : EnumSet E} {r : Bool} {e : E} :
      Built ordOf s → EnumSet.remove ordOf s e = some (r, s') → Built ordOf s'
  | clear_op {s : EnumSet E} : Built ordOf s → Built ordOf (EnumSet.clear s)
  | union_op {a b : EnumSet E} :
      Built ordOf a → Built ordOf b → Built ordOf (EnumSet.union a b)
  | intersection_op {a b : EnumSet E} :
      Built ordOf a → Built ordOf b → Built ordOf (EnumSet.intersection a b)
  | difference_op {a b : EnumSet E} :
      Built ordOf a → Built ordOf b → Built ordOf (EnumSet.difference a b)
  | symmetric_difference_op {a b : EnumSet E} :
      Built ordOf a → Built ordOf b → Built ordOf (EnumSet.symmetric_difference a b)
  | extend_op {s s' : EnumSet E} {l : List E} :
      Built ordOf s → extendList ordOf s l = some s' → Built ordOf s'
  | from_iter_op {l : List E} {s : EnumSet E} :
      from_iter ordOf l = some s → Built ordOf s

/-- `syn::VariantData`: the body kind of an enum variant. -/
inductive VariantData : Type
  | Unit : VariantData
  | Tuple : VariantData
  | Struct : VariantData
deriving DecidableEq

/-- An enum variant as seen by the derive macro: its body kind and its
optional explicit discriminant expression (abstracted to a `Nat`). -/
structure Variant where
  data : VariantData
  discriminant : Option Nat
deriving DecidableEq

/-- The validation loop of `generate_enum_code` in
`enum-set-derive/src/lib.rs`: for each `(count, variant)` pair of
`variants.iter().enumerate()`, panic if `count == 32`, if the variant is not
a unit variant, or if it carries an explicit discriminant.  `Except.error`
models the panic; `count` is the enumeration counter. -/
def checkVariants : Nat → List Variant → Except String Unit
  | _, [] => Except.ok ()
  | count, v :: rest =>
    if count == 32 then
      Except.error "#[derive(CLike)] supports at most 32 variants"
    else if v.data ≠ VariantData.Unit then
      Except.error "#[derive(CLike)] requires C style style enum"
    else if v.discriminant.isSome then
      Except.error "#[derive(CLike)] doesn't currently support discriminants"
    else checkVariants (count + 1) rest

/-- `generate_enum_code`: validate the variant list and, on success, emit the
ordinal mapping assigning each variant its zero-based declaration position
(`let counter = 0..variants.len() as u32`). -/
def generate_enum_code (variants : List Variant) : Except String (List Nat) :=
  match checkVariants 0 variants with
  | Except.error msg => Except.error msg
  | Except.ok _ => Except.ok (List.range variants.length)

/-- A program state holding one set and one previously created iterator
(the iterator is an independent value: `Iter` stores a copy of the mask and
has no reference back to the set). -/
structure ProgState (E : Type) where
  set : EnumSet E
  it : Iter E
deriving DecidableEq

/-- The documented mutations of a set. -/
inductive MutOp (E : Type) : Type
  | insert_m : E → MutOp E
  | remove_m : E → MutOp E
  | clear_m : MutOp E
  | extend_m : List E → MutOp E

/-- Apply one mutation to the set component of a program state.  The
iterator component is untouched: in the source, `Iter` owns copies of
`index`/`bits`, so no set mutation can reach it. -/
def applyMut {E : Type} (ordOf : E → Nat) (st : ProgState E) :
    MutOp E → Option (ProgState E)
  | MutOp.insert_m e =>
    (EnumSet.insert ordOf st.set e).map (fun p => ⟨p.2, st.it⟩)
  | MutOp.remove_m e =>
    (EnumSet.remove ordOf st.set e).map (fun p => ⟨p.2, st.it⟩)
  | MutOp.clear_m => some ⟨EnumSet.clear st.set, st.it⟩
  | MutOp.extend_m l =>
    (extendList ordOf st.set l).map (fun s' => ⟨s', st.it⟩)

/-- Apply a sequence of mutations. -/
def applyMuts {E : Type} (ordOf : E → Nat) (st : ProgState E) :
    List (MutOp E) → Option (ProgState E)
  | [] => some st
  | m :: rest =>
    match applyMut ordOf st m with
    | none => none
    | some st' => applyMuts ordOf st' rest

/-- The test enum `Foo { A, B, C }` from `tests/test.rs`, used as the
concrete element type of the witnesses. -/
inductive Foo : Type
  | A : Foo
  | B : Foo
  | C : Foo
deriving DecidableEq

/-- `CLike::to_u32` for `Foo` (declaration position). -/
def Foo.to_u32 : Foo → Nat
  | Foo.A => 0
  | Foo.B => 1
  | Foo.C => 2

/-- `CLike::from_u32` for `Foo`; out-of-domain inputs (unreachable for the
set container) are mapped arbitrarily. -/
def Foo.from_u32 : Nat → Foo
  | 0 => Foo.A
  | 1 => Foo.B
  | _ => Foo.C

theorem count_ones_zero : count_ones 0 = 0 := by
  rw [count_ones]; simp

theorem count_ones_of_ne_zero {n : Nat} (h : n ≠ 0) :
    count_ones n = n % 2 + count_ones (n / 2) := by
  rw [count_ones]; simp [h]

theorem count_ones_eq_zero_iff (n : Nat) : count_ones n = 0 ↔ n = 0 := by
  induction n using Nat.strong_induction_on with
  | _ n ih =>
    constructor
    · intro h
      by_contra hn
      rw [count_ones_of_ne_zero hn] at h
      have h2 := (ih (n / 2) (Nat.div_lt_self (Nat.pos_of_ne_zero hn) (by omega))).1
      have hmod : n % 2 = 0 := by omega
      have hdiv : n / 2 = 0 := h2 (by omega)
      omega
    · intro h; subst h; exact count_ones_zero

theorem lor_div_two (a b : Nat) : (a ||| b) / 2 = a / 2 ||| b / 2 := by
  apply Nat.eq_of_testBit_eq
  intro i
  have h1 : ((a ||| b) / 2).testBit i = (a ||| b).testBit (i + 1) :=
    (Nat.testBit_succ _ _).symm
  rw [h1, Nat.testBit_lor, Nat.testBit_lor, Nat.testBit_succ, Nat.testBit_succ]

theorem lor_mod_two_eq_one_iff (a b : Nat) :
    (a ||| b) % 2 = 1 ↔ a % 2 = 1 ∨ b % 2 = 1 := by
  have h := Nat.testBit_lor a b 0
  rw [Nat.testBit_zero, Nat.testBit_zero, Nat.testBit_zero] at h
  rcases Nat.mod_two_eq_zero_or_one a with ha | ha <;>
    rcases Nat.mod_two_eq_zero_or_one b with hb | hb <;>
      simp [ha, hb] at h ⊢ <;> omega

theorem count_ones_lor_two_pow :
    ∀ (k bits : Nat), bits.testBit k = false →
      count_ones (bits ||| 2 ^ k) = count_ones bits + 1 := by
  intro k
  induction k with
  | zero =>
    intro bits h
    rw [Nat.testBit_zero] at h
    have hmod : bits % 2 = 0 := by
      rcases Nat.mod_two_eq_zero_or_one bits with h' | h' <;> simp [h'] at h ⊢
    have hm : (bits ||| 2 ^ 0) % 2 = 1 :=
      (lor_mod_two_eq_one_iff bits (2 ^ 0)).2 (Or.inr (by norm_num))
    have hne : (bits ||| 2 ^ 0) ≠ 0 := by
      intro hz
      rw [hz] at hm
      omega
    rw [count_ones_of_ne_zero hne]
    rw [hm, lor_div_two]
    have h0 : (2 : Nat) ^ 0 / 2 = 0 := by norm_num
    have hlz : bits / 2 ||| 0 = bits / 2 := by simp
    rw [h0, hlz]
    by_cases hb : bits = 0
    · subst hb
      rw [count_ones_zero]
    · rw [count_ones_of_ne_zero hb]
      omega
  | succ k ih =>
    intro bits h
    rw [Nat.testBit_succ] at h
    have hpow : (2 : Nat) ^ (k + 1) % 2 = 0 := by
      have : (2 : Nat) ^ (k + 1) = 2 * 2 ^ k := by ring
      omega
    have hne : (bits ||| 2 ^ (k + 1)) ≠ 0 := by
      intro hz
      have ht := Nat.testBit_lor bits (2 ^ (k + 1)) (k + 1)
      rw [hz, Nat.zero_testBit] at ht
      simp [Nat.testBit_two_pow] at ht
    rw [count_ones_of_ne_zero hne, lor_div_two]
    have hdiv : (2 : Nat) ^ (k + 1) / 2 = 2 ^ k := by
      have : (2 : Nat) ^ (k + 1) = 2 * 2 ^ k := by ring
      omega
    have hmod : (bits ||| 2 ^ (k + 1)) % 2 = bits % 2 := by
      have hiff := lor_mod_two_eq_one_iff bits (2 ^ (k + 1))
      omega
    rw [hmod, hdiv, ih (bits / 2) h]
    by_cases hb : bits = 0
    · subst hb; simp [count_ones_zero]
    · rw [count_ones_of_ne_zero hb]
      omega

theorem lor_two_pow_of_testBit_eq_true {n k : Nat} (h : n.testBit k = true) :
    n ||| 2 ^ k = n := by
  apply Nat.eq_of_testBit_eq
  intro i
  rw [Nat.testBit_lor, Nat.testBit_two_pow]
  by_cases hik : k = i
  · subst hik; simp [h]
  · simp [hik]

theorem land_two_pow_eq_zero_iff (n k : Nat) :
    (n &&& 2 ^ k = 0) ↔ n.testBit k = false := by
  constructor
  · intro h
    have ht := Nat.testBit_land n (2 ^ k) k
    rw [h, Nat.zero_testBit] at ht
    simp [Nat.testBit_two_pow] at ht
    exact ht
  · intro h
    apply Nat.zero_of_testBit_eq_false
    intro i
    rw [Nat.testBit_land, Nat.testBit_two_pow]
    by_cases hik : k = i
    · subst hik; simp [h]
    · simp [hik]

theorem bitIndices_zero : bitIndices 0 = [] := by
  rw [bitIndices]; simp

theorem bitIndices_of_odd {n : Nat} (h : n % 2 = 1) :
    bitIndices n = 0 :: (bitIndices (n / 2)).map (· + 1) := by
  have hne : n ≠ 0 := by omega
  rw [bitIndices]; simp [hne, h]

theorem bitIndices_of_even {n : Nat} (hne : n ≠ 0) (h : n % 2 = 0) :
    bitIndices n = (bitIndices (n / 2)).map (· + 1) := by
  have h1 : ¬(n % 2 = 1) := by omega
  rw [bitIndices]; simp [hne, h1]

theorem mem_bitIndices : ∀ n i, i ∈ bitIndices n ↔ n.testBit i = true := by
  intro n
  induction n using Nat.strong_induction_on with
  | _ n ih =>
    intro i
    by_cases hn : n = 0
    · subst hn; simp [bitIndices_zero, Nat.zero_testBit]
    · have hdiv : n / 2 < n := Nat.div_lt_self (Nat.pos_of_ne_zero hn) (by omega)
      rcases Nat.mod_two_eq_zero_or_one n with he | ho
      · rw [bitIndices_of_even hn he]
        cases i with
        | zero =>
          rw [Nat.testBit_zero]
          constructor
          · intro hmem
            rcases List.mem_map.1 hmem with ⟨a, _, ha⟩
            omega
          · intro hb
            simp at hb
            omega
        | succ i =>
          rw [Nat.testBit_succ, List.mem_map]
          constructor
          · rintro ⟨a, ha, hae⟩
            have hai : a = i := by omega
            exact hai ▸ (ih _ hdiv a).1 ha
          · intro hb
            exact ⟨i, (ih _ hdiv i).2 hb, rfl⟩
      · rw [bitIndices_of_odd ho]
        cases i with
        | zero => simp [Nat.testBit_zero, ho]
        | succ i =>
          rw [Nat.testBit_succ, List.mem_cons, List.mem_map]
          constructor
          · rintro (h0 | ⟨a, ha, hae⟩)
            · omega
            · have hai : a = i := by omega
              exact hai ▸ (ih _ hdiv a).1 ha
          · intro hb
            exact Or.inr ⟨i, (ih _ hdiv i).2 hb, rfl⟩

theorem bitIndices_pairwise : ∀ n, (bitIndices n).Pairwise (· < ·) := by
  intro n
  induction n using Nat.strong_induction_on with
  | _ n ih =>
    by_cases hn : n = 0
    · rw [hn, bitIndices_zero]; exact List.Pairwise.nil
    · have hdiv : n / 2 < n := Nat.div_lt_self (Nat.pos_of_ne_zero hn) (by omega)
      have hmap : ((bitIndices (n / 2)).map (· + 1)).Pairwise (· < ·) :=
        List.pairwise_map.2 ((ih _ hdiv).imp (fun hab => by omega))
      rcases Nat.mod_two_eq_zero_or_one n with he | ho
      · rw [bitIndices_of_even hn he]; exact hmap
      · rw [bitIndices_of_odd ho]
        refine List.Pairwise.cons ?_ hmap
        intro b hb
        rcases List.mem_map.1 hb with ⟨a, _, ha⟩
        omega

theorem length_bitIndices : ∀ n, (bitIndices n).length = count_ones n := by
  intro n
  induction n using Nat.strong_induction_on with
  | _ n ih =>
    by_cases hn : n = 0
    · rw [hn, bitIndices_zero, count_ones_zero]; rfl
    · have hdiv : n / 2 < n := Nat.div_lt_self (Nat.pos_of_ne_zero hn) (by omega)
      rw [count_ones_of_ne_zero hn]
      rcases Nat.mod_two_eq_zero_or_one n with he | ho
      · rw [bitIndices_of_even hn he, List.length_map, ih _ hdiv]
        omega
      · rw [bitIndices_of_odd ho, List.length_cons, List.length_map, ih _ hdiv]
        omega

theorem skipZeros_of_odd {bits : Nat} (index : Nat) (h : bits % 2 = 1) :
    skipZeros index bits = (index, bits) := by
  rw [skipZeros]
  simp [h]

theorem skipZeros_of_even {bits : Nat} (index : Nat) (hne : bits ≠ 0) (h : bits % 2 = 0) :
    skipZeros index bits = skipZeros (index + 1) (bits / 2) := by
  rw [skipZeros]
  simp [hne, h]

theorem Iter.next_of_zero {E : Type} (f : Nat → E) (index : Nat) :
    Iter.next f (⟨index, 0⟩ : Iter E) = none := by
  simp [Iter.next]

theorem Iter.next_of_ne_zero {E : Type} (f : Nat → E) (index bits : Nat)
    (h : bits ≠ 0) :
    Iter.next f (⟨index, bits⟩ : Iter E) =
      some (f (skipZeros index bits).1,
        ⟨(skipZeros index bits).1 + 1, (skipZeros index bits).2 / 2⟩) := by
  simp [Iter.next, h]

theorem Iter.next_eq_none_iff {E : Type} (f : Nat → E) (it : Iter E) :
    Iter.next f it = none ↔ it.bits = 0 := by
  constructor
  · intro h
    by_contra hb
    rw [Iter.next] at h
    simp [hb] at h
  · intro h
    simp [Iter.next, h]

theorem Iter.toList_of_next_none {E : Type} (f : Nat → E) (it : Iter E)
    (h : Iter.next f it = none) : Iter.toList f it = [] := by
  rw [Iter.toList]
  split
  · rfl
  · next e it' heq => rw [h] at heq; cases heq

theorem Iter.toList_of_next_some {E : Type} (f : Nat → E) (it it' : Iter E)
    (e : E) (h : Iter.next f it = some (e, it')) :
    Iter.toList f it = e :: Iter.toList f it' := by
  rw [Iter.toList]
  split
  · next heq => rw [h] at heq; cases heq
  · next e' it'' heq =>
    rw [h] at heq
    cases heq
    rfl

theorem Iter.toList_eq {E : Type} (f : Nat → E) :
    ∀ bits index, Iter.toList f (⟨index, bits⟩ : Iter E) =
      ((bitIndices bits).map (· + index)).map f := by
  intro bits
  induction bits using Nat.strong_induction_on with
  | _ bits ih =>
    intro index
    by_cases hz : bits = 0
    · subst hz
      rw [Iter.toList_of_next_none f _ (Iter.next_of_zero f index), bitIndices_zero]
      rfl
    · have hdiv : bits / 2 < bits := Nat.div_lt_self (Nat.pos_of_ne_zero hz) (by omega)
      rcases Nat.mod_two_eq_zero_or_one bits with he | ho
      · have hd2 : bits / 2 ≠ 0 := by
          intro h0
          omega
        have hnext : Iter.next f (⟨index, bits⟩ : Iter E) =
            Iter.next f (⟨index + 1, bits / 2⟩ : Iter E) := by
          rw [Iter.next_of_ne_zero f index bits hz,
            Iter.next_of_ne_zero f (index + 1) (bits / 2) hd2,
            skipZeros_of_even index hz he]
        have hsame : Iter.toList f (⟨index, bits⟩ : Iter E) =
            Iter.toList f (⟨index + 1, bits / 2⟩ : Iter E) := by
          rcases hx : Iter.next f (⟨index + 1, bits / 2⟩ : Iter E) with _ | ⟨e, it'⟩
          · rw [Iter.toList_of_next_none f _ (hnext.trans hx),
              Iter.toList_of_next_none f _ hx]
          · rw [Iter.toList_of_next_some f _ it' e (hnext.trans hx),
              Iter.toList_of_next_some f _ it' e hx]
        rw [hsame, ih (bits / 2) hdiv (index + 1), bitIndices_of_even hz he,
          List.map_map, List.map_map, List.map_map]
        apply List.map_congr_left
        intro a _
        simp only [Function.comp_apply]
        congr 1
        omega
      · have hsz := skipZeros_of_odd index ho
        have hnext := Iter.next_of_ne_zero f index bits hz
        rw [hsz] at hnext
        rw [Iter.toList_of_next_some f _ _ _ hnext, ih (bits / 2) hdiv (index + 1),
          bitIndices_of_odd ho]
        simp only [List.map_cons, List.map_map, Nat.zero_add]
        refine congrArg (f index :: ·) ?_
        apply List.map_congr_left
        intro a _
        simp only [Function.comp_apply]
        congr 1
        omega

theorem EnumSet.iter_toList {E : Type} (f : Nat → E) (s : EnumSet E) :
    Iter.toList f (EnumSet.iter s) = (bitIndices s.bits).map f := by
  show Iter.toList f (⟨0, s.bits⟩ : Iter E) = _
  rw [Iter.toList_eq]
  have h : (bitIndices s.bits).map (· + 0) = (bitIndices s.bits).map id := by
    apply List.map_congr_left
    intro a _
    rfl
  rw [h, List.map_id]

theorem bitOf_eq_some {E : Type} (ordOf : E → Nat) (e : E) (h : ordOf e < 32) :
    bitOf ordOf e = some (2 ^ ordOf e) := by
  simp [bitOf, h]

theorem bitOf_eq_none {E : Type} (ordOf : E → Nat) (e : E) (h : 32 ≤ ordOf e) :
    bitOf ordOf e = none := by
  simp [bitOf]
  omega

theorem land_two_pow_bool (n k : Nat) : (!((n &&& 2 ^ k) == 0)) = n.testBit k := by
  rcases hb : n.testBit k with _ | _
  · have h0 : n &&& 2 ^ k = 0 := (land_two_pow_eq_zero_iff n k).2 hb
    simp [h0]
  · have h0 : n &&& 2 ^ k ≠ 0 := by
      intro hz
      rw [(land_two_pow_eq_zero_iff n k).1 hz] at hb
      cases hb
    simp [h0]

theorem containsOpt_eq_some {E : Type} (ordOf : E → Nat) (s : EnumSet E) (e : E)
    (h : ordOf e < 32) :
    EnumSet.containsOpt ordOf s e = some (s.bits.testBit (ordOf e)) := by
  rw [EnumSet.containsOpt, bitOf_eq_some ordOf e h]
  simp [land_two_pow_bool]

theorem containsOpt_eq_none {E : Type} (ordOf : E → Nat) (s : EnumSet E) (e : E)
    (h : 32 ≤ ordOf e) : EnumSet.containsOpt ordOf s e = none := by
  rw [EnumSet.containsOpt, bitOf_eq_none ordOf e h]
  rfl

theorem insertStep_eq {E : Type} (ordOf : E → Nat) (s : EnumSet E) (e : E)
    (h : ordOf e < 32) :
    EnumSet.insertStep ordOf s e =
      (some (!s.bits.testBit (ordOf e)), ⟨s.bits ||| 2 ^ ordOf e⟩) := by
  rw [EnumSet.insertStep, containsOpt_eq_some ordOf s e h, bitOf_eq_some ordOf e h]

theorem insert_eq_some {E : Type} (ordOf : E → Nat) (s : EnumSet E) (e : E)
    (h : ordOf e < 32) :
    EnumSet.insert ordOf s e =
      some (!s.bits.testBit (ordOf e), ⟨s.bits ||| 2 ^ ordOf e⟩) := by
  rw [EnumSet.insert, insertStep_eq ordOf s e h]

theorem insertStep_eq_of_ge {E : Type} (ordOf : E → Nat) (s : EnumSet E) (e : E)
    (h : 32 ≤ ordOf e) : EnumSet.insertStep ordOf s e = (none, s) := by
  rw [EnumSet.insertStep, containsOpt_eq_none ordOf s e h]

theorem insert_eq_none {E : Type} (ordOf : E → Nat) (s : EnumSet E) (e : E)
    (h : 32 ≤ ordOf e) : EnumSet.insert ordOf s e = none := by
  rw [EnumSet.insert, insertStep_eq_of_ge ordOf s e h]

theorem removeStep_eq {E : Type} (ordOf : E → Nat) (s : EnumSet E) (e : E)
    (h : ordOf e < 32) :
    EnumSet.removeStep ordOf s e =
      (some (s.bits.testBit (ordOf e)), ⟨s.bits &&& not32 (2 ^ ordOf e)⟩) := by
  rw [EnumSet.removeStep, containsOpt_eq_some ordOf s e h, bitOf_eq_some ordOf e h]

theorem remove_eq_some {E : Type} (ordOf : E → Nat) (s : EnumSet E) (e : E)
    (h : ordOf e < 32) :
    EnumSet.remove ordOf s e =
      some (s.bits.testBit (ordOf e), ⟨s.bits &&& not32 (2 ^ ordOf e)⟩) := by
  rw [EnumSet.remove, removeStep_eq ordOf s e h]

theorem removeStep_eq_of_ge {E : Type} (ordOf : E → Nat) (s : EnumSet E) (e : E)
    (h : 32 ≤ ordOf e) : EnumSet.removeStep ordOf s e = (none, s) := by
  rw [EnumSet.removeStep, containsOpt_eq_none ordOf s e h]

theorem remove_eq_none {E : Type} (ordOf : E → Nat) (s : EnumSet E) (e : E)
    (h : 32 ≤ ordOf e) : EnumSet.remove ordOf s e = none := by
  rw [EnumSet.remove, removeStep_eq_of_ge ordOf s e h]

theorem insert_inv {E : Type} {ordOf : E → Nat} {s s' : EnumSet E} {e : E}
    {r : Bool} (h : EnumSet.insert ordOf s e = some (r, s')) :
    ordOf e < 32 ∧ r = !s.bits.testBit (ordOf e) ∧
      s'.bits = s.bits ||| 2 ^ ordOf e := by
  by_cases hlt : ordOf e < 32
  · rw [insert_eq_some ordOf s e hlt] at h
    injection h with h
    injection h with h1 h2
    exact ⟨hlt, h1.symm, by rw [← h2]⟩
  · rw [insert_eq_none ordOf s e (by omega)] at h
    cases h

theorem remove_inv {E : Type} {ordOf : E → Nat} {s s' : EnumSet E} {e : E}
    {r : Bool} (h : EnumSet.remove ordOf s e = some (r, s')) :
    ordOf e < 32 ∧ r = s.bits.testBit (ordOf e) ∧
      s'.bits = s.bits &&& not32 (2 ^ ordOf e) := by
  by_cases hlt : ordOf e < 32
  · rw [remove_eq_some ordOf s e hlt] at h
    injection h with h
    injection h with h1 h2
    exact ⟨hlt, h1.symm, by rw [← h2]⟩
  · rw [remove_eq_none ordOf s e (by omega)] at h
    cases h

theorem validMask_zero {E : Type} (ordOf : E → Nat) : validMask ordOf 0 := by
  intro i hi
  rw [Nat.zero_testBit] at hi
  cases hi

theorem validMask_lor_two_pow {E : Type} {ordOf : E → Nat} {bits : Nat} (e : E)
    (hv : validMask ordOf bits) : validMask ordOf (bits ||| 2 ^ ordOf e) := by
  intro i hi
  rw [Nat.testBit_lor] at hi
  rcases Bool.or_eq_true_iff.mp hi with h | h
  · exact hv i h
  · rw [Nat.testBit_two_pow] at h
    exact ⟨e, by simpa using h⟩

theorem validMask_land_left {E : Type} {ordOf : E → Nat} {a : Nat} (b : Nat)
    (hv : validMask ordOf a) : validMask ordOf (a &&& b) := by
  intro i hi
  rw [Nat.testBit_land] at hi
  exact hv i (Bool.and_eq_true_iff.mp hi).1

theorem validMask_lor {E : Type} {ordOf : E → Nat} {a b : Nat}
    (hva : validMask ordOf a) (hvb : validMask ordOf b) :
    validMask ordOf (a ||| b) := by
  intro i hi
  rw [Nat.testBit_lor] at hi
  rcases Bool.or_eq_true_iff.mp hi with h | h
  · exact hva i h
  · exact hvb i h

theorem validMask_xor {E : Type} {ordOf : E → Nat} {a b : Nat}
    (hva : validMask ordOf a) (hvb : validMask ordOf b) :
    validMask ordOf (a ^^^ b) := by
  intro i hi
  rw [Nat.testBit_xor] at hi
  rcases ha : a.testBit i with _ | _
  · rcases hb : b.testBit i with _ | _
    · rw [ha, hb] at hi; cases hi
    · exact hvb i hb
  · exact hva i ha

theorem extendList_validMask {E : Type} (ordOf : E → Nat) :
    ∀ (l : List E) (s s' : EnumSet E), validMask ordOf s.bits →
      extendList ordOf s l = some s' → validMask ordOf s'.bits := by
  intro l
  induction l with
  | nil =>
    intro s s' hv h
    rw [extendList] at h
    injection h with h
    rw [← h]
    exact hv
  | cons e rest ih =>
    intro s s' hv h
    rw [extendList] at h
    cases hi : EnumSet.insert ordOf s e with
    | none => rw [hi] at h; cases h
    | some p =>
      rw [hi] at h
      have hinv : ordOf e < 32 ∧ p.1 = !s.bits.testBit (ordOf e) ∧
          p.2.bits = s.bits ||| 2 ^ ordOf e :=
        insert_inv (by rw [hi])
      have hv' : validMask ordOf p.2.bits := by
        rw [hinv.2.2]
        exact validMask_lor_two_pow e hv
      exact ih p.2 s' hv' h

theorem testBit_not32 (x i : Nat) :
    (not32 x).testBit i = (decide (i < 32) ^^ x.testBit i) := by
  rw [not32, Nat.testBit_xor, Nat.testBit_two_pow_sub_one]

theorem xor_eq_or_and_not32 {a b : Nat} (ha : a < 2 ^ 32) (hb : b < 2 ^ 32) :
    a ^^^ b = (a &&& not32 b) ||| (b &&& not32 a) := by
  apply Nat.eq_of_testBit_eq
  intro i
  rw [Nat.testBit_xor, Nat.testBit_lor, Nat.testBit_land, Nat.testBit_land,
    testBit_not32, testBit_not32]
  by_cases hi : i < 32
  · simp only [decide_eq_true hi, Bool.true_xor]
    cases a.testBit i <;> cases b.testBit i <;> rfl
  · have h32 : (2 : Nat) ^ 32 ≤ 2 ^ i := Nat.pow_le_pow_right (by omega) (by omega)
    have hta : a.testBit i = false :=
      Nat.testBit_eq_false_of_lt (Nat.lt_of_lt_of_le ha h32)
    have htb : b.testBit i = false :=
      Nat.testBit_eq_false_of_lt (Nat.lt_of_lt_of_le hb h32)
    simp [hi, hta, htb]

theorem xor_eq_union_diff_inter {a b : Nat} (ha : a < 2 ^ 32) (hb : b < 2 ^ 32) :
    a ^^^ b = (a ||| b) &&& not32 (a &&& b) := by
  apply Nat.eq_of_testBit_eq
  intro i
  rw [Nat.testBit_xor, Nat.testBit_land, Nat.testBit_lor, testBit_not32,
    Nat.testBit_land]
  by_cases hi : i < 32
  · simp only [decide_eq_true hi, Bool.true_xor]
    cases a.testBit i <;> cases b.testBit i <;> rfl
  · have h32 : (2 : Nat) ^ 32 ≤ 2 ^ i := Nat.pow_le_pow_right (by omega) (by omega)
    have hta : a.testBit i = false :=
      Nat.testBit_eq_false_of_lt (Nat.lt_of_lt_of_le ha h32)
    have htb : b.testBit i = false :=
      Nat.testBit_eq_false_of_lt (Nat.lt_of_lt_of_le hb h32)
    simp [hi, hta, htb]

theorem checkVariants_cons (count : Nat) (v : Variant) (rest : List Variant) :
    checkVariants count (v :: rest) =
      if count == 32 then
        Except.error "#[derive(CLike)] supports at most 32 variants"
      else if v.data ≠ VariantData.Unit then
        Except.error "#[derive(CLike)] requires C style style enum"
      else if v.discriminant.isSome then
        Except.error "#[derive(CLike)] doesn't currently support discriminants"
      else checkVariants (count + 1) rest := rfl

theorem checkVariants_error_of_long :
    ∀ (vs : List Variant) (count : Nat), 32 < count + vs.length → count ≤ 32 →
      ∃ msg, checkVariants count vs = Except.error msg := by
  intro vs
  induction vs with
  | nil =>
    intro count h1 h2
    simp at h1
    omega
  | cons v rest ih =>
    intro count h1 h2
    by_cases hc : count = 32
    · exact ⟨"#[derive(CLike)] supports at most 32 variants",
        by rw [checkVariants_cons]; simp [hc]⟩
    · rcases hd : v.data with _ | _ | _
      · rcases hdisc : v.discriminant with _ | d
        · obtain ⟨msg, hmsg⟩ := ih (count + 1) (by simp at h1 ⊢; omega) (by omega)
          exact ⟨msg, by rw [checkVariants_cons]; simp [hc, hd, hdisc, hmsg]⟩
        · exact ⟨"#[derive(CLike)] doesn't currently support discriminants",
            by rw [checkVariants_cons]; simp [hc, hd, hdisc]⟩
      · exact ⟨"#[derive(CLike)] requires C style style enum",
          by rw [checkVariants_cons]; simp [hc, hd]⟩
      · exact ⟨"#[derive(CLike)] requires C style style enum",
          by rw [checkVariants_cons]; simp [hc, hd]⟩

theorem checkVariants_ok :
    ∀ (vs : List Variant) (count : Nat),
      (∀ v ∈ vs, v.data = VariantData.Unit ∧ v.discriminant = none) →
      count + vs.length ≤ 32 →
      checkVariants count vs = Except.ok () := by
  intro vs
  induction vs with
  | nil =>
    intro count _ _
    rfl
  | cons v rest ih =>
    intro count hall hlen
    have hv := hall v (List.mem_cons_self v rest)
    have hc : ¬(count = 32) := by
      simp at hlen
      omega
    rw [checkVariants_cons]
    have hrec := ih (count + 1)
      (fun w hw => hall w (List.mem_cons_of_mem v hw))
      (by simp at hlen ⊢; omega)
    simp [hc, hv.1, hv.2, hrec]

theorem applyMut_it_eq {E : Type} (ordOf : E → Nat) (st st' : ProgState E)
    (m : MutOp E) (h : applyMut ordOf st m = some st') : st'.it = st.it := by
  cases m with
  | insert_m e =>
    rw [applyMut] at h
    cases hi : EnumSet.insert ordOf st.set e with
    | none => rw [hi] at h; cases h
    | some p =>
      rw [hi, Option.map_some'] at h
      cases h
      rfl
  | remove_m e =>
    rw [applyMut] at h
    cases hi : EnumSet.remove ordOf st.set e with
    | none => rw [hi] at h; cases h
    | some p =>
      rw [hi, Option.map_some'] at h
      cases h
      rfl
  | clear_m =>
    rw [applyMut] at h
    cases h
    rfl
  | extend_m l =>
    rw [applyMut] at h
    cases hi : extendList ordOf st.set l with
    | none => rw [hi] at h; cases h
    | some s1 =>
      rw [hi, Option.map_some'] at h
      cases h
      rfl

theorem applyMuts_it_eq {E : Type} (ordOf : E → Nat) :
    ∀ (muts : List (MutOp E)) (st st' : ProgState E),
      applyMuts ordOf st muts = some st' → st'.it = st.it := by
  intro muts
  induction muts with
  | nil =>
    intro st st' h
    rw [applyMuts] at h
    cases h
    rfl
  | cons m rest ih =>
    intro st st' h
    rw [applyMuts] at h
    cases hm : applyMut ordOf st m with
    | none => rw [hm] at h; cases h
    | some st1 =>
      rw [hm] at h
      rw [ih st1 st' h, applyMut_it_eq ordOf st st1 m hm]

/-- C5: `a.is_subset(b) == b.is_superset(a)` for all `a`, `b`; moreover
`is_subset(a, b)` holds iff `a.mask & b.mask == a.mask` and
`is_superset(a, b)` holds iff `a.mask & b.mask == b.mask`. -/
theorem C5_subset_superset_duality {E : Type} (a b : EnumSet E) :
    a.is_subset b = b.is_superset a ∧
      (a.is_subset b = true ↔ a.bits &&& b.bits = a.bits) ∧
      (a.is_superset b = true ↔ a.bits &&& b.bits = b.bits) := by
  refine ⟨rfl, ?_, ?_⟩
  · rw [EnumSet.is_subset, EnumSet.is_superset, Nat.land_comm]
    simp
  · rw [EnumSet.is_superset]
    simp

/-- C7: `bit(value) = 1 << to_ordinal(value)` fails with the fatal assertion
iff `to_ordinal(value) >= 32`; for every value with `to_ordinal(value) < 32`
no set operation (`insert`, `remove`, or the `contains` query) can fail. -/
theorem C7_bit_assertion {E : Type} (ordOf : E → Nat) (s : EnumSet E) (e : E) :
    (bitOf ordOf e = none ↔ 32 ≤ ordOf e) ∧
      ((EnumSet.insert ordOf s e).isSome ↔ ordOf e < 32) ∧
      ((EnumSet.remove ordOf s e).isSome ↔ ordOf e < 32) ∧
      ((EnumSet.containsOpt ordOf s e).isSome ↔ ordOf e < 32) := by
  by_cases hlt : ordOf e < 32
  · rw [bitOf_eq_some ordOf e hlt, insert_eq_some ordOf s e hlt,
      remove_eq_some ordOf s e hlt, containsOpt_eq_some ordOf s e hlt]
    simp [hlt]
  · rw [bitOf_eq_none ordOf e (by omega), insert_eq_none ordOf s e (by omega),
      remove_eq_none ordOf s e (by omega), containsOpt_eq_none ordOf s e (by omega)]
    simp [hlt]
    omega

/-- C10: an `insert` or `remove` whose value has ordinal `>= 32` hits the
fatal assertion before the mask is modified: the operation yields no result
and the resulting mask state is exactly the original one. -/
theorem C10_failed_mutation_leaves_state {E : Type} (ordOf : E → Nat)
    (s : EnumSet E) (e : E) (h : 32 ≤ ordOf e) :
    EnumSet.insertStep ordOf s e = (none, s) ∧
      EnumSet.removeStep ordOf s e = (none, s) :=
  ⟨insertStep_eq_of_ge ordOf s e h, removeStep_eq_of_ge ordOf s e h⟩

theorem C10_witness :
    32 ≤ (40 : Nat) ∧
      EnumSet.insertStep (fun n => n) (⟨5⟩ : EnumSet Nat) 40 = (none, ⟨5⟩) ∧
      EnumSet.removeStep (fun n => n) (⟨5⟩ : EnumSet Nat) 40 = (none, ⟨5⟩) :=
  ⟨by omega,
    (C10_failed_mutation_leaves_state (fun n => n) ⟨5⟩ 40 (by decide)).1,
    (C10_failed_mutation_leaves_state (fun n => n) ⟨5⟩ 40 (by decide)).2⟩

/-- C4: for all sets `a`, `b` with 32-bit masks,
`a.symmetric_difference(b) = a.difference(b).union(b.difference(a))`
and `= a.union(b).difference(a.intersection(b))`; identically for the
operator forms `a ^ b = (a - b) | (b - a) = (a | b) - (a & b)`. -/
theorem C4_symmetric_difference_identities {E : Type} (a b : EnumSet E)
    (ha : a.bits < 2 ^ 32) (hb : b.bits < 2 ^ 32) :
    a.symmetric_difference b = (a.difference b).union (b.difference a) ∧
      a.symmetric_difference b = (a.union b).difference (a.intersection b) ∧
      a.bitxor b = (a.sub b).bitor (b.sub a) ∧
      a.bitxor b = (a.bitor b).sub (a.bitand b) := by
  have h1 : a.symmetric_difference b = (a.difference b).union (b.difference a) := by
    simp only [EnumSet.symmetric_difference, EnumSet.difference, EnumSet.union,
      EnumSet.mk.injEq]
    exact xor_eq_or_and_not32 ha hb
  have h2 : a.symmetric_difference b = (a.union b).difference (a.intersection b) := by
    simp only [EnumSet.symmetric_difference, EnumSet.difference, EnumSet.union,
      EnumSet.intersection, EnumSet.mk.injEq]
    exact xor_eq_union_diff_inter ha hb
  exact ⟨h1, h2, h1, h2⟩

theorem C4_witness :
    (5 : Nat) < 2 ^ 32 ∧ (6 : Nat) < 2 ^ 32 ∧
      (⟨5⟩ : EnumSet Foo).symmetric_difference ⟨6⟩ =
        ((⟨5⟩ : EnumSet Foo).difference ⟨6⟩).union
          ((⟨6⟩ : EnumSet Foo).difference ⟨5⟩) :=
  ⟨by norm_num, by norm_num,
    (C4_symmetric_difference_identities (⟨5⟩ : EnumSet Foo) ⟨6⟩
      (by norm_num) (by norm_num)).1⟩

/-- C2: for `to_ordinal(x) < 32`, `insert(x)` sets bit `to_ordinal(x)` and
returns `true` iff `x` was not already a member; inserting twice into a set
not containing `x` returns `true` then `false`, and `len` grows by exactly
1 then by 0. -/
theorem C2_insert_semantics {E : Type} (ordOf : E → Nat) (s : EnumSet E)
    (x : E) (hx : ordOf x < 32) :
    (∀ (r : Bool) (s' : EnumSet E), EnumSet.insert ordOf s x = some (r, s') →
      s'.bits = s.bits ||| 2 ^ ordOf x ∧
      s'.bits.testBit (ordOf x) = true ∧
      (r = true ↔ EnumSet.containsOpt ordOf s x = some false)) ∧
    (EnumSet.containsOpt ordOf s x = some false →
      ∃ s₁ s₂ : EnumSet E,
        EnumSet.insert ordOf s x = some (true, s₁) ∧
        EnumSet.insert ordOf s₁ x = some (false, s₂) ∧
        s₁.len = s.len + 1 ∧
        s₂.len = s₁.len) := by
  have htb : ∀ t : EnumSet E, (t.bits ||| 2 ^ ordOf x).testBit (ordOf x) = true := by
    intro t
    rw [Nat.testBit_lor, Nat.testBit_two_pow]
    simp
  constructor
  · intro r s' h
    rw [insert_eq_some ordOf s x hx] at h
    injection h with h
    injection h with h1 h2
    subst h2
    refine ⟨rfl, htb s, ?_⟩
    rw [containsOpt_eq_some ordOf s x hx, ← h1]
    cases s.bits.testBit (ordOf x) <;> simp
  · intro hmem
    rw [containsOpt_eq_some ordOf s x hx] at hmem
    injection hmem with hmem
    refine ⟨⟨s.bits ||| 2 ^ ordOf x⟩, ⟨s.bits ||| 2 ^ ordOf x⟩, ?_, ?_, ?_, rfl⟩
    · rw [insert_eq_some ordOf s x hx, hmem]
      rfl
    · rw [insert_eq_some ordOf ⟨s.bits ||| 2 ^ ordOf x⟩ x hx]
      have ht := htb s
      rw [ht]
      have hsame : (s.bits ||| 2 ^ ordOf x) ||| 2 ^ ordOf x = s.bits ||| 2 ^ ordOf x :=
        lor_two_pow_of_testBit_eq_true ht
      rw [hsame]
      rfl
    · show count_ones (s.bits ||| 2 ^ ordOf x) = count_ones s.bits + 1
      exact count_ones_lor_two_pow (ordOf x) s.bits hmem

theorem C2_witness :
    Foo.to_u32 Foo.A < 32 ∧
      (∃ s₁ s₂ : EnumSet Foo,
        EnumSet.insert Foo.to_u32 (EnumSet.new Foo) Foo.A = some (true, s₁) ∧
        EnumSet.insert Foo.to_u32 s₁ Foo.A = some (false, s₂) ∧
        s₁.len = (EnumSet.new Foo).len + 1 ∧
        s₂.len = s₁.len) :=
  ⟨by decide,
    (C2_insert_semantics Foo.to_u32 (EnumSet.new Foo) Foo.A (by decide)).2
      (by decide)⟩

/-- C6: `len()` equals the number of elements yielded by `iter()` before
exhaustion (the population count of the mask), and `is_empty()` is true iff
`len() == 0`. -/
theorem C6_len_is_iter_count {E : Type} (f : Nat → E) (s : EnumSet E) :
    s.len = (Iter.toList f (EnumSet.iter s)).length ∧
      (s.is_empty = true ↔ s.len = 0) := by
  constructor
  · rw [EnumSet.iter_toList, List.length_map, length_bitIndices]
    rfl
  · rw [EnumSet.is_empty, EnumSet.len]
    simp [count_ones_eq_zero_iff]

/-- C1: any set built from the empty set by the documented operations, over
an element type whose ordinals all lie in `[0, n)` for some `n ≤ 32`,
satisfies invariant I1: every set bit of its mask is the ordinal of some
value of the element type. -/
theorem C1_invariant_preservation {E : Type} (ordOf : E → Nat) (n : Nat)
    (hn : n ≤ 32) (hord : ∀ e : E, ordOf e < n) (s : EnumSet E)
    (hs : Built ordOf s) : validMask ordOf s.bits := by
  induction hs with
  | new_op => exact validMask_zero ordOf
  | insert_op hb heq ih =>
    obtain ⟨-, -, hbits⟩ := insert_inv heq
    rw [hbits]
    exact validMask_lor_two_pow _ ih
  | remove_op hb heq ih =>
    obtain ⟨-, -, hbits⟩ := remove_inv heq
    rw [hbits]
    exact validMask_land_left _ ih
  | clear_op hb ih => exact validMask_zero ordOf
  | union_op ha hb iha ihb => exact validMask_lor iha ihb
  | intersection_op ha hb iha ihb => exact validMask_land_left _ iha
  | difference_op ha hb iha ihb => exact validMask_land_left _ iha
  | symmetric_difference_op ha hb iha ihb => exact validMask_xor iha ihb
  | extend_op hb heq ih => exact extendList_validMask ordOf _ _ _ ih heq
  | from_iter_op heq =>
    exact extendList_validMask ordOf _ _ _ (validMask_zero ordOf) heq

theorem C1_witness :
    (3 : Nat) ≤ 32 ∧ (∀ e : Foo, Foo.to_u32 e < 3) ∧
      validMask Foo.to_u32 (⟨5⟩ : EnumSet Foo).bits := by
  have h1 : EnumSet.insert Foo.to_u32 (EnumSet.new Foo) Foo.A =
      some (true, ⟨1⟩) := by decide
  have h2 : EnumSet.insert Foo.to_u32 (⟨1⟩ : EnumSet Foo) Foo.C =
      some (true, ⟨5⟩) := by decide
  exact ⟨by omega, fun e => by cases e <;> decide,
    C1_invariant_preservation Foo.to_u32 3 (by omega)
      (fun e => by cases e <;> decide) ⟨5⟩
      (Built.insert_op (Built.insert_op Built.new_op h1) h2)⟩

/-- C3: for a set satisfying invariant I1 (with a coherent ordinal mapping),
the iterator yields exactly the members, without duplicates, in strictly
ascending ordinal order, and `next` signals end-of-sequence exactly when the
remaining mask is zero. -/
theorem C3_iteration_order {E : Type} (ordOf : E → Nat) (f : Nat → E)
    (s : EnumSet E) (hord : ∀ e : E, ordOf e < 32)
    (hrt : ∀ e : E, f (ordOf e) = e) (hvalid : validMask ordOf s.bits) :
    (∀ e : E, e ∈ Iter.toList f (EnumSet.iter s) ↔
        EnumSet.containsOpt ordOf s e = some true) ∧
      (Iter.toList f (EnumSet.iter s)).Pairwise (fun a b => ordOf a < ordOf b) ∧
      (Iter.toList f (EnumSet.iter s)).Nodup ∧
      (∀ it : Iter E, Iter.next f it = none ↔ it.bits = 0) := by
  have hkey : ∀ i, i ∈ bitIndices s.bits → ordOf (f i) = i := by
    intro i hi
    obtain ⟨e', he'⟩ := hvalid i ((mem_bitIndices s.bits i).1 hi)
    rw [← he', hrt e']
  have hpw : (Iter.toList f (EnumSet.iter s)).Pairwise
      (fun a b => ordOf a < ordOf b) := by
    rw [EnumSet.iter_toList]
    refine List.pairwise_map.2 ?_
    refine List.Pairwise.imp_of_mem ?_ (bitIndices_pairwise s.bits)
    intro a b ha hb hab
    rw [hkey a ha, hkey b hb]
    exact hab
  refine ⟨?_, hpw, ?_, fun it => Iter.next_eq_none_iff f it⟩
  · intro e
    rw [EnumSet.iter_toList, containsOpt_eq_some ordOf s e (hord e)]
    constructor
    · intro hmem
      obtain ⟨i, hi, hfi⟩ := List.mem_map.1 hmem
      obtain ⟨e', he'⟩ := hvalid i ((mem_bitIndices s.bits i).1 hi)
      have hee : e = e' := by rw [← hfi, ← he', hrt e']
      rw [hee, he']
      rw [← (mem_bitIndices s.bits i).1 hi]  -- placeholder adjust
    · intro hc
      injection hc with hc
      apply List.mem_map.2
      exact ⟨ordOf e, (mem_bitIndices s.bits (ordOf e)).2 hc, hrt e⟩
  · exact hpw.imp (fun hab => by
      intro heq
      rw [heq] at hab
      omega)

theorem C3_witness :
    (∀ e : Foo, Foo.to_u32 e < 32) ∧
      (∀ e : Foo, Foo.from_u32 (Foo.to_u32 e) = e) ∧
      (Foo.A ∈ Iter.toList Foo.from_u32 (EnumSet.iter (⟨5⟩ : EnumSet Foo)) ↔
        EnumSet.containsOpt Foo.to_u32 (⟨5⟩ : EnumSet Foo) Foo.A = some true) := by
  have hvalid : validMask Foo.to_u32 (5 : Nat) := by
    intro i hi
    have hlt : i < 3 := by
      by_contra hge
      have h5 : (5 : Nat) < 2 ^ i := by
        have h3 : (5 : Nat) < 2 ^ 3 := by norm_num
        have hle : (2 : Nat) ^ 3 ≤ 2 ^ i := Nat.pow_le_pow_right (by omega) (by omega)
        omega
      rw [Nat.testBit_eq_false_of_lt h5] at hi
      cases hi
    interval_cases i
    · exact ⟨Foo.A, rfl⟩
    · exact absurd hi (by decide)
    · exact ⟨Foo.C, rfl⟩
  exact ⟨fun e => by cases e <;> decide, fun e => by cases e <;> rfl,
    (C3_iteration_order Foo.to_u32 Foo.from_u32 ⟨5⟩
      (fun e => by cases e <;> decide) (fun e => by cases e <;> rfl) hvalid).1 Foo.A⟩

/-- C8: the derive-macro generator fatally rejects (emitting no mapping) any
enumeration with more than 32 variants, and accepts an enumeration of
exactly 32 unit variants without explicit discriminants, emitting the
positional ordinal mapping. -/
theorem C8_generator_eligibility (variants : List Variant) :
    (32 < variants.length →
      ∃ msg, generate_enum_code variants = Except.error msg) ∧
      ((∀ v ∈ variants, v.data = VariantData.Unit ∧ v.discriminant = none) →
        variants.length = 32 →
        generate_enum_code variants = Except.ok (List.range 32)) := by
  constructor
  · intro hlen
    obtain ⟨msg, hmsg⟩ := checkVariants_error_of_long variants 0 (by omega) (by omega)
    exact ⟨msg, by simp [generate_enum_code, hmsg]⟩
  · intro hall hlen
    rw [generate_enum_code, checkVariants_ok variants 0 hall (by omega), hlen]

theorem C8_witness :
    (∃ msg, generate_enum_code
        (List.replicate 33 (⟨VariantData.Unit, none⟩ : Variant)) =
      Except.error msg) ∧
      generate_enum_code
          (List.replicate 32 (⟨VariantData.Unit, none⟩ : Variant)) =
        Except.ok (List.range 32) :=
  ⟨(C8_generator_eligibility
      (List.replicate 33 ⟨VariantData.Unit, none⟩)).1 (by simp),
    (C8_generator_eligibility (List.replicate 32 ⟨VariantData.Unit, none⟩)).2
      (fun v hv => by
        rw [List.eq_of_mem_replicate hv]
        exact ⟨rfl, rfl⟩)
      (by simp)⟩

/-- C9: an iterator snapshots the mask at creation time: after any sequence
of successful mutations of the set, a previously created iterator is
unchanged and still yields exactly the elements of the pre-mutation mask. -/
theorem C9_iterator_snapshot {E : Type} (ordOf : E → Nat) (f : Nat → E)
    (s : EnumSet E) (muts : List (MutOp E)) (st' : ProgState E)
    (h : applyMuts ordOf ⟨s, EnumSet.iter s⟩ muts = some st') :
    st'.it = EnumSet.iter s ∧
      Iter.toList f st'.it = (bitIndices s.bits).map f := by
  have h1 : st'.it = EnumSet.iter s :=
    applyMuts_it_eq ordOf muts ⟨s, EnumSet.iter s⟩ st' h
  refine ⟨h1, ?_⟩
  rw [h1]
  exact EnumSet.iter_toList f s

theorem C9_witness :
    (⟨⟨0⟩, ⟨0, 5⟩⟩ : ProgState Foo).it = EnumSet.iter (⟨5⟩ : EnumSet Foo) ∧
      Iter.toList Foo.from_u32 (⟨⟨0⟩, ⟨0, 5⟩⟩ : ProgState Foo).it =
        (bitIndices (⟨5⟩ : EnumSet Foo).bits).map Foo.from_u32 :=
  C9_iterator_snapshot Foo.to_u32 Foo.from_u32 ⟨5⟩
    [MutOp.insert_m Foo.B, MutOp.clear_m] ⟨⟨0⟩, ⟨0, 5⟩⟩ (by decide)
